import Mathlib

/-!
Shallow embedding of the CTMP proxy (`src/ctmp_proxy/src/main.rs`).

Bytes are modelled as `Nat` values (with `< 256` hypotheses where the
arithmetic depends on them being `u8`).  The 70000-byte buffer of `main`
together with the running `total_bytes` counter of `read_from_source` is
modelled by the list `acc` of accumulated bytes: the code only ever reads
`buffer[i]` for `i < total_bytes`, so the zero-filled tail of the real
buffer is unobservable.  The producer socket is modelled by a finite
script of read outcomes: each `source.read(&mut buffer[total_bytes..])`
call consumes the next entry, which is either a chunk of bytes
(`Ok(chunk.len())`, with the chunk written at `buffer[total_bytes..]`)
or an I/O error (`Err(e)`, e.g. `WouldBlock` on the non-blocking socket,
which the `?` operator propagates out of the function).
-/

/-- Size of the `buffer` array allocated in `main`
(`let mut buffer: [u8; 70000]`). -/
def bufferSize : Nat := 70000

/-- One iteration's 16-bit word in `calculate_checksum`: the code builds
`word = (packet_data[i] as u16) << 8`, or-s in `packet_data[i + 1]` when
`i + 1 < packet_size`, and then overwrites the word with `0xCCCC` when
`i == 4` (the checksum field). -/
def wordVal (data : List Nat) (n i : Nat) : Nat :=
  let w := data.getD i 0 * 256 + (if i + 1 < n then data.getD (i + 1) 0 else 0)
  if i = 4 then 0xCCCC else w

/-- The index sequence of the loop `for i in (0..packet_size).step_by(2)`:
the even offsets `0, 2, 4, ...` below `n`, of which there are
`(n + 1) / 2`. -/
def csIndices (n : Nat) : List Nat :=
  List.range' 0 ((n + 1) / 2) 2

/-- One iteration of the summing loop of `calculate_checksum`:
`sum += word as u32;` followed by the in-loop carry fold
`if sum > 0xFFFF { sum = (sum & 0xFFFF) + 1; }`
(`sum & 0xFFFF` is `sum % 2^16`). -/
def csFoldStep (data : List Nat) (n sum i : Nat) : Nat :=
  let s := sum + wordVal data n i
  if 0xFFFF < s then s % 0x10000 + 1 else s

/-- The summing loop of `calculate_checksum`, running over the remaining
loop indices with the current accumulator `sum`. -/
def csLoop (data : List Nat) (n : Nat) : List Nat → Nat → Nat
  | [], sum => sum
  | i :: is, sum => csLoop data n is (csFoldStep data n sum i)

/-- `calculate_checksum(packet_data, packet_size)`: the summing loop from
`sum = 0`, then `return !sum as u16;` — bitwise complement of the `u32`
accumulator truncated to 16 bits, i.e. `(0xFFFFFFFF - sum) % 2^16`. -/
def calculate_checksum (data : List Nat) (n : Nat) : Nat :=
  (0xFFFFFFFF - csLoop data n (csIndices n) 0) % 0x10000

/-- `check_checksum(packet_data, packet_size)`: compares the big-endian
16-bit value stored at bytes 4..5 with the recomputed checksum. -/
def check_checksum (data : List Nat) (n : Nat) : Bool :=
  decide (data.getD 4 0 * 256 + data.getD 5 0 = calculate_checksum data n)

/-- One outcome of `source.read(&mut buffer[total_bytes..])`:
either `Ok(bytes.len())` with `bytes` deposited in the buffer
(`bytes = []` models `Ok(0)`, end of stream), or `Err(e)` —
e.g. `WouldBlock` from the non-blocking socket. -/
inductive ReadStep where
  | chunk (bytes : List Nat)
  | ioErr
  deriving DecidableEq

/-- Result of one invocation of `read_from_source`.  `ok n` is
`Ok(total_bytes)`; `ioError` is the `Err` propagated by `?` from `read`;
`eofIncomplete` is the `bytes_read == 0` error ("No more data to read and
packet is incomplete."); `badMagic`/`badChecksum` are the two validation
errors; `pending acc` means the read script was exhausted while the loop
was still waiting for more bytes (the loop would issue another `read`). -/
inductive DecodeResult where
  | ok (n : Nat)
  | ioError
  | eofIncomplete
  | badMagic (b : Nat)
  | badChecksum
  | pending (acc : List Nat)
  deriving DecidableEq

/-- The `loop` of `read_from_source`, with `acc` the bytes accumulated so
far (`buffer[..total_bytes]`).  Mirrors the source exactly: read; error on
`Ok(0)`; keep reading below 8 bytes; reject a wrong magic byte; keep
reading while `total_bytes - 8` differs from the declared length; on an
exact match verify the checksum when flag bit `0x40` is set; else return
`Ok(total_bytes)`. -/
def read_from_source_loop (acc : List Nat) : List ReadStep → DecodeResult
  | [] => DecodeResult.pending acc
  | ReadStep.ioErr :: _ => DecodeResult.ioError
  | ReadStep.chunk bytes :: rest =>
    if bytes.length = 0 then DecodeResult.eofIncomplete
    else
      let acc2 := acc ++ bytes
      if acc2.length < 8 then read_from_source_loop acc2 rest
      else if acc2.getD 0 0 ≠ 0xCC then DecodeResult.badMagic (acc2.getD 0 0)
      else if acc2.length - 8 ≠ acc2.getD 2 0 * 256 + acc2.getD 3 0 then
        read_from_source_loop acc2 rest
      else if 0 < acc2.getD 1 0 &&& 0x40 ∧ check_checksum acc2 acc2.length = false then
        DecodeResult.badChecksum
      else DecodeResult.ok acc2.length

/-- `read_from_source(source, buffer)`: `buffer.fill(0)` and
`total_bytes = 0`, then the loop — i.e. the loop started from an empty
accumulation. -/
def read_from_source (script : List ReadStep) : DecodeResult :=
  read_from_source_loop [] script

/-- `broadcast_to_destinations(destination_clients, buffer, buffer_size)`.
Each destination client is modelled by whether its `write_all` fails; the
result records, in the same order, what each client received: `none` when
the write failed (only logged), `some frame` when `write_all` of
`buffer[..buffer_size]` succeeded. -/
def broadcast_to_destinations (clients : List Bool) (buffer : List Nat) (size : Nat) :
    List (Option (List Nat)) :=
  clients.map (fun failing => if failing then none else some (buffer.take size))

/-- The dispatch in `main`'s relay loop: `Ok(byte_count)` leads to
`broadcast_to_destinations`, any `Err` is only logged. -/
def relay_broadcasts : DecodeResult → Bool
  | DecodeResult.ok _ => true
  | _ => false

/-- The producer-connection update in `main`'s relay loop: a successful
`source_socket.accept()` replaces `source_client`; otherwise (the `Err`
arm is empty) the current connection — even a closed one — is kept. -/
def next_source_client (accepted current : Option Nat) : Option Nat :=
  match accepted with
  | some s => some s
  | none => current

/-- Modelled from the spec (§4.1 Checksum Engine), for comparison with
`calculate_checksum`: the buffer is split into big-endian 16-bit words, a
last odd byte is high-byte-padded with zero, and the word at byte offset
4 is treated as the literal `0xCCCC` regardless of its contents. -/
def specWords : List Nat → Nat → List Nat
  | [], _ => []
  | [b], off => [if off = 4 then 0xCCCC else b * 256]
  | b1 :: b2 :: rest, off =>
    (if off = 4 then 0xCCCC else b1 * 256 + b2) :: specWords rest (off + 2)

/-- Modelled from the spec (§4.1): after the word loop, any accumulated
value above 16 bits is folded back in by repeated end-around-carry
addition. -/
def onesComplementFold (s : Nat) : Nat :=
  if 0xFFFF < s then onesComplementFold (s % 0x10000 + s / 0x10000) else s
termination_by s
decreasing_by
  have h1 : 1 ≤ s / 0x10000 := (Nat.one_le_div_iff (by norm_num)).mpr (by omega)
  omega

/-- Modelled from the spec (§4.1 `compute`): the RFC 1071 internet
checksum of the first `n` bytes — sum the big-endian words (checksum
field forced to `0xCCCC`), fold the carries back by end-around-carry
addition, and take the bitwise one's complement of the final 16-bit
sum. -/
def rfc1071_checksum (data : List Nat) (n : Nat) : Nat :=
  0xFFFF - onesComplementFold ((specWords (data.take n) 0).sum)

/-- The summing loop of `calculate_checksum` with every buffer access
guarded: `data[i]?` is `none` exactly when the Rust indexing
`packet_data[i]` would be out of bounds.  The second byte of a word is
accessed only under the source's `i + 1 < packet_size` test. -/
def csLoopChecked (data : List Nat) (n : Nat) : List Nat → Nat → Option Nat
  | [], sum => some sum
  | i :: is, sum =>
    (data[i]?).bind fun b =>
      (if i + 1 < n then data[i + 1]? else some 0).bind fun b2 =>
        let w := if i = 4 then 0xCCCC else b * 256 + b2
        let s := sum + w
        csLoopChecked data n is (if 0xFFFF < s then s % 0x10000 + 1 else s)

/-- `calculate_checksum` with guarded buffer accesses. -/
def calculate_checksumChecked (data : List Nat) (n : Nat) : Option Nat :=
  (csLoopChecked data n (csIndices n) 0).map (fun s => (0xFFFFFFFF - s) % 0x10000)

/-- `check_checksum` with guarded accesses to bytes 4 and 5 and to the
recomputation. -/
def check_checksumChecked (data : List Nat) (n : Nat) : Option Bool :=
  (data[4]?).bind fun b4 =>
    (data[5]?).bind fun b5 =>
      (calculate_checksumChecked data n).map fun c => decide (b4 * 256 + b5 = c)

/-- The decoder loop with every potentially-panicking operation guarded:
the slice `buffer[total_bytes..]` requires `total_bytes ≤ bufferSize`
(and `read` can return at most the slice length); the `usize`
subtraction `total_bytes - 8` requires `8 ≤ total_bytes`; every header
byte is fetched with `[·]?`; the checksum functions run in their guarded
form.  `none` marks a guard that failed. -/
def read_loopChecked (acc : List Nat) : List ReadStep → Option DecodeResult
  | [] => some (DecodeResult.pending acc)
  | ReadStep.ioErr :: _ => some DecodeResult.ioError
  | ReadStep.chunk bytes :: rest =>
    if acc.length ≤ bufferSize ∧ bytes.length ≤ bufferSize - acc.length then
      if bytes.length = 0 then some DecodeResult.eofIncomplete
      else
        let acc2 := acc ++ bytes
        if acc2.length < 8 then read_loopChecked acc2 rest
        else
          (acc2[0]?).bind fun b0 =>
            if b0 ≠ 0xCC then some (DecodeResult.badMagic b0)
            else if 8 ≤ acc2.length then
              (acc2[2]?).bind fun b2 =>
                (acc2[3]?).bind fun b3 =>
                  if acc2.length - 8 ≠ b2 * 256 + b3 then read_loopChecked acc2 rest
                  else
                    (acc2[1]?).bind fun b1 =>
                      if 0 < b1 &&& 0x40 then
                        (check_checksumChecked acc2 acc2.length).bind fun cs =>
                          if cs = false then some DecodeResult.badChecksum
                          else some (DecodeResult.ok acc2.length)
                      else some (DecodeResult.ok acc2.length)
            else none
    else none

/-- All bytes a read script presents, in order. -/
def scriptBytes : List ReadStep → List Nat
  | [] => []
  | ReadStep.chunk bytes :: rest => bytes ++ scriptBytes rest
  | ReadStep.ioErr :: rest => scriptBytes rest

/-- Whether every entry of a script is a non-empty chunk of data (no end
of stream, no I/O error). -/
def allDataChunks : List ReadStep → Bool
  | [] => true
  | ReadStep.chunk bytes :: rest => !bytes.isEmpty && allDataChunks rest
  | ReadStep.ioErr :: _ => false

/-- The contract of `read` on the 70000-byte buffer: starting from `t`
accumulated bytes, each chunk fits in the remaining buffer space. -/
def scriptFits : Nat → List ReadStep → Bool
  | _, [] => true
  | t, ReadStep.ioErr :: rest => scriptFits t rest
  | t, ReadStep.chunk bytes :: rest =>
    decide (bytes.length ≤ bufferSize - t) && scriptFits (t + bytes.length) rest

/-- Sum (without the in-loop carry fold) of the checksum words at the
given loop indices; proof device relating `csLoop` to the spec's
description. -/
def wordsSum (data : List Nat) (n : Nat) (is : List Nat) : Nat :=
  (is.map (wordVal data n)).sum

/-! ## Checksum arithmetic -/

theorem getD_lt_of_forall_lt {data : List Nat} (hb : ∀ b ∈ data, b < 256) (i : Nat) :
    data.getD i 0 < 256 := by
  rcases Nat.lt_or_ge i data.length with h | h
  · rw [List.getD_eq_getElem data 0 h]
    exact hb _ (List.getElem_mem h)
  · rw [List.getD_eq_default data 0 h]
    norm_num

theorem wordVal_le {data : List Nat} (hb : ∀ b ∈ data, b < 256) (n i : Nat) :
    wordVal data n i ≤ 0xFFFF := by
  have h1 := getD_lt_of_forall_lt hb i
  have h2 := getD_lt_of_forall_lt hb (i + 1)
  simp only [wordVal]
  split
  · omega
  · split <;> omega

theorem csFoldStep_le_modeq {data : List Nat} (hb : ∀ b ∈ data, b < 256) (n sum i : Nat)
    (hs : sum ≤ 0xFFFF) :
    csFoldStep data n sum i ≤ 0xFFFF ∧
      csFoldStep data n sum i % 0xFFFF = (sum + wordVal data n i) % 0xFFFF := by
  have hw := wordVal_le hb n i
  simp only [csFoldStep]
  split <;> constructor <;> omega

theorem csLoop_le_modeq {data : List Nat} (hb : ∀ b ∈ data, b < 256) (n : Nat) :
    ∀ (is : List Nat) (sum : Nat), sum ≤ 0xFFFF →
      csLoop data n is sum ≤ 0xFFFF ∧
        csLoop data n is sum % 0xFFFF = (sum + wordsSum data n is) % 0xFFFF := by
  intro is
  induction is with
  | nil => intro sum hs; exact ⟨hs, by simp [csLoop, wordsSum]⟩
  | cons i is ih =>
    intro sum hs
    obtain ⟨hst1, hst2⟩ := csFoldStep_le_modeq hb n sum i hs
    obtain ⟨h1, h2⟩ := ih (csFoldStep data n sum i) hst1
    refine ⟨h1, ?_⟩
    show csLoop data n is (csFoldStep data n sum i) % 0xFFFF = _
    rw [h2]
    simp only [wordsSum, List.map_cons, List.sum_cons]
    omega

theorem csLoop_eq_zero_iff (data : List Nat) (n : Nat) :
    ∀ (is : List Nat) (sum : Nat),
      csLoop data n is sum = 0 ↔ sum + wordsSum data n is = 0 := by
  intro is
  induction is with
  | nil => intro sum; simp [csLoop, wordsSum]
  | cons i is ih =>
    intro sum
    show csLoop data n is (csFoldStep data n sum i) = 0 ↔ _
    rw [ih]
    simp only [wordsSum, List.map_cons, List.sum_cons]
    simp only [csFoldStep, wordsSum]
    split <;> omega

theorem onesComplementFold_le (s : Nat) : onesComplementFold s ≤ 0xFFFF := by
  induction s using Nat.strong_induction_on with
  | _ s ih =>
    rw [onesComplementFold]
    split
    · next h =>
      refine ih _ ?_
      have h1 : 1 ≤ s / 0x10000 := (Nat.one_le_div_iff (by norm_num)).mpr (by omega)
      omega
    · omega

theorem onesComplementFold_modeq (s : Nat) :
    onesComplementFold s % 0xFFFF = s % 0xFFFF := by
  induction s using Nat.strong_induction_on with
  | _ s ih =>
    rw [onesComplementFold]
    split
    · next h =>
      have h1 : 1 ≤ s / 0x10000 := (Nat.one_le_div_iff (by norm_num)).mpr (by omega)
      rw [ih _ (by omega)]
      omega
    · rfl

theorem onesComplementFold_eq_zero_iff (s : Nat) :
    onesComplementFold s = 0 ↔ s = 0 := by
  induction s using Nat.strong_induction_on with
  | _ s ih =>
    rw [onesComplementFold]
    split
    · next h =>
      have h1 : 1 ≤ s / 0x10000 := (Nat.one_le_div_iff (by norm_num)).mpr (by omega)
      rw [ih _ (by omega)]
      omega
    · exact Iff.rfl

theorem eq_of_modeq_ffff {a b : Nat} (ha : a ≤ 0xFFFF) (hbb : b ≤ 0xFFFF)
    (h : a % 0xFFFF = b % 0xFFFF) (hz : a = 0 ↔ b = 0) : a = b := by
  omega

theorem csLoop_eq_onesFold {data : List Nat} (hb : ∀ b ∈ data, b < 256) (n : Nat) :
    csLoop data n (csIndices n) 0
      = onesComplementFold (wordsSum data n (csIndices n)) := by
  obtain ⟨h1, h2⟩ := csLoop_le_modeq hb n (csIndices n) 0 (by norm_num)
  refine eq_of_modeq_ffff h1 (onesComplementFold_le _) ?_ ?_
  · rw [h2, onesComplementFold_modeq]
    omega
  · rw [csLoop_eq_zero_iff, onesComplementFold_eq_zero_iff]
    omega

theorem mem_csIndices_lt {n i : Nat} (h : i ∈ csIndices n) : i < n ∧ i % 2 = 0 := by
  simp only [csIndices, List.mem_range'] at h
  obtain ⟨k, hk, rfl⟩ := h
  omega

theorem wordsSum_eq_specWords {data : List Nat} {n : Nat} (hn : n ≤ data.length) :
    ∀ (m i : Nat), m = (n - i + 1) / 2 →
      wordsSum data n (List.range' i m 2)
        = (specWords ((data.drop i).take (n - i)) i).sum := by
  intro m
  induction m with
  | zero =>
    intro i hm
    have h0 : n - i = 0 := by omega
    rw [h0]
    simp [wordsSum, specWords]
  | succ m ih =>
    intro i hm
    have hin : i < n := by omega
    have hil : i < data.length := by omega
    rw [List.range'_succ]
    rcases Nat.lt_or_ge (i + 1) n with h2 | h2
    · have hil2 : i + 1 < data.length := by omega
      have htake : (data.drop i).take (n - i)
          = data[i] :: data[i + 1] :: (data.drop (i + 2)).take (n - (i + 2)) := by
        rw [List.drop_eq_getElem_cons hil, List.drop_eq_getElem_cons hil2]
        have h3 : n - i = n - (i + 2) + 1 + 1 := by omega
        rw [h3, List.take_succ_cons, List.take_succ_cons]
      rw [htake]
      simp only [wordsSum, List.map_cons, List.sum_cons, specWords]
      have hih := ih (i + 2) (by omega)
      simp only [wordsSum] at hih
      rw [hih]
      have hword : wordVal data n i
          = if i = 4 then 0xCCCC else data[i] * 256 + data[i + 1] := by
        simp only [wordVal]
        rw [if_pos h2, List.getD_eq_getElem data 0 hil, List.getD_eq_getElem data 0 hil2]
      rw [hword]
    · have hn1 : n - i = 1 := by omega
      have hm0 : m = 0 := by omega
      subst hm0
      rw [hn1, List.drop_eq_getElem_cons hil, List.take_succ_cons, List.take_zero]
      simp only [wordsSum, List.range', List.map_cons, List.map_nil, List.sum_cons,
        List.sum_nil, specWords, List.sum_cons]
      have hword : wordVal data n i
          = if i = 4 then 0xCCCC else data[i] * 256 := by
        simp only [wordVal]
        rw [if_neg (show ¬ (i + 1 < n) by omega), List.getD_eq_getElem data 0 hil]
        split <;> omega
      rw [hword]

theorem getD_set_ne (l : List Nat) (m k v d : Nat) (h : m ≠ k) :
    (l.set m v).getD k d = l.getD k d := by
  simp [List.getD_eq_getElem?_getD, List.getElem?_set_ne h]

theorem wordVal_set45 (data : List Nat) (n v w i : Nat) (hi : i % 2 = 0) :
    wordVal ((data.set 4 v).set 5 w) n i = wordVal data n i := by
  rcases eq_or_ne i 4 with h4 | h4
  · subst h4; simp [wordVal]
  · have g1 : ((data.set 4 v).set 5 w).getD i 0 = data.getD i 0 := by
      rw [getD_set_ne _ _ _ _ _ (show (5 : Nat) ≠ i by omega),
        getD_set_ne _ _ _ _ _ (show (4 : Nat) ≠ i by omega)]
    have g2 : ((data.set 4 v).set 5 w).getD (i + 1) 0 = data.getD (i + 1) 0 := by
      rw [getD_set_ne _ _ _ _ _ (show (5 : Nat) ≠ i + 1 by omega),
        getD_set_ne _ _ _ _ _ (show (4 : Nat) ≠ i + 1 by omega)]
    simp only [wordVal]
    rw [if_neg h4, if_neg h4, g1, g2]

theorem csLoop_congr {d1 d2 : List Nat} {n : Nat} :
    ∀ (is : List Nat), (∀ i ∈ is, wordVal d1 n i = wordVal d2 n i) →
      ∀ sum, csLoop d1 n is sum = csLoop d2 n is sum := by
  intro is
  induction is with
  | nil => intro _ sum; rfl
  | cons i is ih =>
    intro h sum
    show csLoop d1 n is (csFoldStep d1 n sum i) = csLoop d2 n is (csFoldStep d2 n sum i)
    have hw : csFoldStep d1 n sum i = csFoldStep d2 n sum i := by
      simp only [csFoldStep, h i (List.mem_cons_self i is)]
    rw [hw]
    exact ih (fun j hj => h j (List.mem_cons_of_mem i hj)) _

theorem calculate_checksum_eq_compl {data : List Nat} (hb : ∀ b ∈ data, b < 256) (n : Nat) :
    calculate_checksum data n = 0xFFFF - csLoop data n (csIndices n) 0 := by
  have h := (csLoop_le_modeq hb n (csIndices n) 0 (by norm_num)).1
  simp only [calculate_checksum]
  omega

/-! ## Claim C3 -/

/-- C3: `calculate_checksum(data, n)` equals the RFC 1071 internet
checksum of the first `n` bytes as the spec describes it: big-endian
16-bit words, last odd byte high-padded with zero, the word at byte
offset 4 replaced by the literal `0xCCCC`, carries folded back by
end-around-carry addition, and the final 16-bit sum complemented.
Consequently the result is independent of the bytes stored at offsets
4 and 5. -/
theorem calculate_checksum_is_rfc1071 (data : List Nat) (n : Nat)
    (hb : ∀ b ∈ data, b < 256) (hn : n ≤ data.length) :
    calculate_checksum data n = rfc1071_checksum data n
    ∧ ∀ v w, calculate_checksum ((data.set 4 v).set 5 w) n = calculate_checksum data n := by
  constructor
  · rw [calculate_checksum_eq_compl hb, rfc1071_checksum, csLoop_eq_onesFold hb]
    congr 2
    have hbridge := wordsSum_eq_specWords hn ((n + 1) / 2) 0 (by omega)
    simpa [csIndices] using hbridge
  · intro v w
    have hc := @csLoop_congr ((data.set 4 v).set 5 w) data n
      (csIndices n) (fun i hi => wordVal_set45 data n v w i (mem_csIndices_lt hi).2) 0
    simp only [calculate_checksum]
    rw [hc]

/-- Witness for `calculate_checksum_is_rfc1071` at a concrete sensitive
frame of 9 bytes. -/
theorem calculate_checksum_is_rfc1071_witness :
    calculate_checksum [0xCC, 0x40, 0, 1, 0x66, 0xF1, 0, 0, 0] 9
      = rfc1071_checksum [0xCC, 0x40, 0, 1, 0x66, 0xF1, 0, 0, 0] 9
    ∧ calculate_checksum (([0xCC, 0x40, 0, 1, 0x66, 0xF1, 0, 0, 0].set 4 1).set 5 2) 9
      = calculate_checksum [0xCC, 0x40, 0, 1, 0x66, 0xF1, 0, 0, 0] 9 :=
  ⟨(calculate_checksum_is_rfc1071 _ 9 (by decide) (by decide)).1,
   (calculate_checksum_is_rfc1071 _ 9 (by decide) (by decide)).2 1 2⟩

theorem wordVal_set_outside {data : List Nat} {j : Nat} (v : Nat) {n i : Nat}
    (hi : i % 2 = 0) (hne : i ≠ j - j % 2) :
    wordVal (data.set j v) n i = wordVal data n i := by
  simp only [wordVal]
  rw [getD_set_ne _ _ _ _ _ (show j ≠ i by omega),
    getD_set_ne _ _ _ _ _ (show j ≠ i + 1 by omega)]

theorem wordsSum_set_shift {data : List Nat} {j : Nat} (v : Nat) (n : Nat)
    (hj4 : j ≠ 4) (hj5 : j ≠ 5) :
    ∀ (m s : Nat), s % 2 = 0 → s ≤ j - j % 2 → j - j % 2 < s + 2 * m →
      wordsSum (data.set j v) n (List.range' s m 2) + wordVal data n (j - j % 2)
        = wordsSum data n (List.range' s m 2) + wordVal (data.set j v) n (j - j % 2) := by
  intro m
  induction m with
  | zero => intro s h1 h2 h3; omega
  | succ m ih =>
    intro s h1 h2 h3
    rw [List.range'_succ]
    simp only [wordsSum, List.map_cons, List.sum_cons]
    rcases eq_or_ne s (j - j % 2) with hs | hs
    · have htail : (List.range' (s + 2) m 2).map (wordVal (data.set j v) n)
          = (List.range' (s + 2) m 2).map (wordVal data n) := by
        apply List.map_congr_left
        intro i hi
        obtain ⟨kk, hkk, rfl⟩ := List.mem_range'.mp hi
        exact wordVal_set_outside v (by omega) (by omega)
      rw [htail, ← hs]
      ring
    · rw [wordVal_set_outside v h1 hs]
      have hnext := ih (s + 2) (by omega) (by omega) (by omega)
      simp only [wordsSum] at hnext
      omega

theorem calculate_checksum_flip_ne {F : List Nat} (hb : ∀ b ∈ F, b < 256)
    {j k : Nat} (hj : j < F.length) (hj4 : j ≠ 4) (hj5 : j ≠ 5) (hk : k < 8) :
    calculate_checksum (F.set j (F.getD j 0 ^^^ 2 ^ k)) F.length
      ≠ calculate_checksum F F.length := by
  set n := F.length with hn
  set b := F.getD j 0 with hbdef
  set v := b ^^^ 2 ^ k with hvdef
  set F2 := F.set j v with hF2
  have hblt : b < 256 := getD_lt_of_forall_lt hb j
  have h2k : (2 : Nat) ^ k < 256 := by
    calc 2 ^ k ≤ 2 ^ 7 := Nat.pow_le_pow_right (by norm_num) (by omega)
    _ < 256 := by norm_num
  have hvlt : v < 256 := by
    have h := Nat.xor_lt_two_pow (x := b) (y := 2 ^ k) (n := 8)
      (by simpa using hblt) (by simpa using h2k)
    simpa using h
  have hvne : v ≠ b := by
    intro h
    have h2 : b ^^^ 2 ^ k = b ^^^ 0 := by simpa using h
    have h0 : (2 : Nat) ^ k = 0 := Nat.xor_right_inj.mp h2
    exact absurd h0 (Nat.pos_pow_of_pos k (by norm_num)).ne'
  have hb2 : ∀ x ∈ F2, x < 256 := by
    intro x hx
    rcases List.mem_or_eq_of_mem_set hx with h | h
    · exact hb x h
    · rw [h]; exact hvlt
  have hgetj : F2.getD j 0 = v := by
    rw [hF2]
    simp [List.getD_eq_getElem?_getD, List.getElem?_set_eq_of_lt v hj]
  have hgetne : ∀ m, m ≠ j → F2.getD m 0 = F.getD m 0 := by
    intro m hm
    exact getD_set_ne _ _ _ _ _ (Ne.symm hm)
  have hshift := @wordsSum_set_shift F j v n hj4 hj5 ((n + 1) / 2) 0
    (by omega) (by omega) (by omega)
  rw [← hF2] at hshift
  obtain ⟨hA1, hA2⟩ := csLoop_le_modeq hb n (csIndices n) 0 (by norm_num)
  obtain ⟨hB1, hB2⟩ := csLoop_le_modeq hb2 n (csIndices n) 0 (by norm_num)
  simp only [csIndices] at hA2 hB2 hshift hA1 hB1
  have hw1 := wordVal_le hb n (j - j % 2)
  have hw2 := wordVal_le hb2 n (j - j % 2)
  intro hEq
  have e1 : calculate_checksum F2 n
      = (0xFFFFFFFF - csLoop F2 n (csIndices n) 0) % 0x10000 := rfl
  have e2 : calculate_checksum F n
      = (0xFFFFFFFF - csLoop F n (csIndices n) 0) % 0x10000 := rfl
  simp only [csIndices] at e1 e2
  have hAB : csLoop F2 n (List.range' 0 ((n + 1) / 2) 2) 0
      = csLoop F n (List.range' 0 ((n + 1) / 2) 2) 0 := by
    omega
  have hwordmod : wordVal F2 n (j - j % 2) % 0xFFFF = wordVal F n (j - j % 2) % 0xFFFF := by
    omega
  rcases Nat.mod_two_eq_zero_or_one j with hpar | hpar
  · have hj0 : j - j % 2 = j := by omega
    rw [hj0] at hwordmod
    have hA : wordVal F2 n j = v * 256 + (if j + 1 < n then F.getD (j + 1) 0 else 0) := by
      simp only [wordVal]
      rw [if_neg hj4, hgetj, hgetne (j + 1) (by omega)]
    have hB : wordVal F n j = b * 256 + (if j + 1 < n then F.getD (j + 1) 0 else 0) := by
      simp only [wordVal]
      rw [if_neg hj4, ← hbdef]
    have hLlt : (if j + 1 < n then F.getD (j + 1) 0 else 0) < 256 := by
      split
      · exact getD_lt_of_forall_lt hb _
      · norm_num
    rw [hA, hB] at hwordmod
    omega
  · have hj0 : j - j % 2 = j - 1 := by omega
    rw [hj0] at hwordmod
    have hcond : j - 1 + 1 < n := by omega
    have hA : wordVal F2 n (j - 1) = F.getD (j - 1) 0 * 256 + v := by
      simp only [wordVal]
      rw [if_neg (show ¬ (j - 1 = 4) by omega), hgetne (j - 1) (by omega),
        if_pos hcond, (show j - 1 + 1 = j by omega), hgetj]
    have hB : wordVal F n (j - 1) = F.getD (j - 1) 0 * 256 + b := by
      simp only [wordVal]
      rw [if_neg (show ¬ (j - 1 = 4) by omega), if_pos hcond,
        (show j - 1 + 1 = j by omega), ← hbdef]
    have hHlt : F.getD (j - 1) 0 < 256 := getD_lt_of_forall_lt hb _
    rw [hA, hB] at hwordmod
    omega

/-! ## Claim C4 -/

/-- C4: for a sensitive frame whose stored checksum field (big-endian
bytes 4..5) equals the computed checksum, `check_checksum` returns
`true`; and flipping any single bit of a byte outside the checksum field
(byte `j ∉ {4, 5}`, bit `k < 8`) then makes `check_checksum` return
`false`. -/
theorem check_checksum_flip_detection (F : List Nat)
    (hb : ∀ b ∈ F, b < 256) (hlen : 8 ≤ F.length)
    (hsens : 0 < F.getD 1 0 &&& 0x40) :
    (F.getD 4 0 * 256 + F.getD 5 0 = calculate_checksum F F.length →
      check_checksum F F.length = true)
    ∧ (check_checksum F F.length = true →
      ∀ j k, j < F.length → j ≠ 4 → j ≠ 5 → k < 8 →
        check_checksum (F.set j (F.getD j 0 ^^^ 2 ^ k)) F.length = false) := by
  constructor
  · intro h
    exact decide_eq_true h
  · intro h j k hj hj4 hj5 hk
    have hstored : F.getD 4 0 * 256 + F.getD 5 0 = calculate_checksum F F.length :=
      of_decide_eq_true h
    have hne := calculate_checksum_flip_ne hb hj hj4 hj5 hk
    have h4 : (F.set j (F.getD j 0 ^^^ 2 ^ k)).getD 4 0 = F.getD 4 0 :=
      getD_set_ne _ _ _ _ _ hj4
    have h5 : (F.set j (F.getD j 0 ^^^ 2 ^ k)).getD 5 0 = F.getD 5 0 :=
      getD_set_ne _ _ _ _ _ hj5
    simp only [check_checksum, h4, h5, hstored]
    rw [decide_eq_false_iff_not]
    exact fun hc => hne hc.symm

/-- Witness for `check_checksum_flip_detection`: a concrete 9-byte
sensitive frame with a correct checksum verifies, and flipping bit 0 of
its magic byte makes verification fail. -/
theorem check_checksum_flip_detection_witness :
    check_checksum [0xCC, 0x40, 0, 1, 0x66, 0xF1, 0, 0, 0] 9 = true
    ∧ check_checksum
        ([0xCC, 0x40, 0, 1, 0x66, 0xF1, 0, 0, 0].set 0
          ([0xCC, 0x40, 0, 1, 0x66, 0xF1, 0, 0, 0].getD 0 0 ^^^ 2 ^ 0))
        9 = false :=
  ⟨(check_checksum_flip_detection _ (by decide) (by decide) (by decide)).1 (by decide),
   (check_checksum_flip_detection _ (by decide) (by decide) (by decide)).2
     (by decide) 0 0 (by decide) (by decide) (by decide) (by decide)⟩

/-! ## Decoder loop helpers -/

theorem loop_continue {acc bytes : List Nat} {rest : List ReadStep}
    (hne : ¬ bytes.length = 0)
    (hcont : (acc ++ bytes).length < 8 ∨
      ((acc ++ bytes).getD 0 0 = 0xCC ∧
        (acc ++ bytes).length - 8 ≠ (acc ++ bytes).getD 2 0 * 256 + (acc ++ bytes).getD 3 0)) :
    read_from_source_loop acc (ReadStep.chunk bytes :: rest)
      = read_from_source_loop (acc ++ bytes) rest := by
  simp only [read_from_source_loop]
  rw [if_neg hne]
  by_cases hlt : (acc ++ bytes).length < 8
  · rw [if_pos hlt]
  · obtain ⟨h1, h2⟩ := hcont.resolve_left hlt
    rw [if_neg hlt, if_neg (fun hh => hh h1), if_pos h2]

theorem loop_complete_step {acc bytes : List Nat} {rest : List ReadStep}
    (hne : ¬ bytes.length = 0)
    (h8 : 8 ≤ (acc ++ bytes).length)
    (hmagic : (acc ++ bytes).getD 0 0 = 0xCC)
    (hlen : (acc ++ bytes).length - 8
      = (acc ++ bytes).getD 2 0 * 256 + (acc ++ bytes).getD 3 0) :
    read_from_source_loop acc (ReadStep.chunk bytes :: rest)
      = if 0 < (acc ++ bytes).getD 1 0 &&& 0x40 ∧
            check_checksum (acc ++ bytes) (acc ++ bytes).length = false
        then DecodeResult.badChecksum
        else DecodeResult.ok (acc ++ bytes).length := by
  simp only [read_from_source_loop]
  rw [if_neg hne, if_neg (by omega), if_neg (fun hh => hh hmagic), if_neg (fun hh => hh hlen)]

theorem scriptBytes_pos : ∀ {rest : List ReadStep},
    allDataChunks rest = true → rest ≠ [] → 0 < (scriptBytes rest).length := by
  intro rest h hne
  match rest with
  | ReadStep.chunk bytes :: r =>
    simp only [allDataChunks, Bool.and_eq_true, Bool.not_eq_eq_eq_not, Bool.not_true] at h
    have hb : bytes ≠ [] := by
      intro hb
      rw [hb] at h
      simp [List.isEmpty] at h
    simp only [scriptBytes, List.length_append]
    have : 0 < bytes.length := List.length_pos.mpr hb
    omega
  | ReadStep.ioErr :: r => simp [allDataChunks] at h

theorem loop_pending (N : Nat) :
    ∀ (script : List ReadStep) (acc : List Nat),
      allDataChunks script = true →
      (acc ++ scriptBytes script).length < 8 + N →
      (8 ≤ (acc ++ scriptBytes script).length →
        (acc ++ scriptBytes script).getD 0 0 = 0xCC ∧
        (acc ++ scriptBytes script).getD 2 0 * 256
          + (acc ++ scriptBytes script).getD 3 0 = N) →
      read_from_source_loop acc script
        = DecodeResult.pending (acc ++ scriptBytes script) := by
  intro script
  induction script with
  | nil =>
    intro acc h1 h2 h3
    simp [read_from_source_loop, scriptBytes]
  | cons s rest ih =>
    intro acc hall hlt hhdr
    match s with
    | ReadStep.ioErr => simp [allDataChunks] at hall
    | ReadStep.chunk bytes =>
      simp only [allDataChunks, Bool.and_eq_true] at hall
      have hbne : ¬ bytes.length = 0 := by
        intro h0
        rw [List.length_eq_zero.mp h0] at hall
        simp [List.isEmpty] at hall
      simp only [scriptBytes] at hlt hhdr ⊢
      rw [← List.append_assoc] at hlt hhdr ⊢
      have hstep : read_from_source_loop acc (ReadStep.chunk bytes :: rest)
          = read_from_source_loop (acc ++ bytes) rest := by
        apply loop_continue hbne
        by_cases h8 : (acc ++ bytes).length < 8
        · exact Or.inl h8
        · refine Or.inr ?_
          rw [Nat.not_lt] at h8
          simp only [List.length_append] at h8
          have h8P : 8 ≤ ((acc ++ bytes) ++ scriptBytes rest).length := by
            simp only [List.length_append]
            omega
          obtain ⟨hm, hf⟩ := hhdr h8P
          have g0 : ((acc ++ bytes) ++ scriptBytes rest).getD 0 0 = (acc ++ bytes).getD 0 0 :=
            List.getD_append _ _ _ _ (by simp only [List.length_append]; omega)
          have g2 : ((acc ++ bytes) ++ scriptBytes rest).getD 2 0 = (acc ++ bytes).getD 2 0 :=
            List.getD_append _ _ _ _ (by simp only [List.length_append]; omega)
          have g3 : ((acc ++ bytes) ++ scriptBytes rest).getD 3 0 = (acc ++ bytes).getD 3 0 :=
            List.getD_append _ _ _ _ (by simp only [List.length_append]; omega)
          refine ⟨by rw [← g0, hm], ?_⟩
          rw [← g2, ← g3, hf]
          simp only [List.length_append] at hlt ⊢
          omega
      rw [hstep]
      exact ih (acc ++ bytes) hall.2 hlt hhdr

theorem loop_ok (N : Nat) :
    ∀ (s1 : List ReadStep) (acc : List Nat) (s2 : List ReadStep),
      allDataChunks s1 = true → s1 ≠ [] →
      (acc ++ scriptBytes s1).length = 8 + N →
      (acc ++ scriptBytes s1).getD 0 0 = 0xCC →
      (acc ++ scriptBytes s1).getD 2 0 * 256 + (acc ++ scriptBytes s1).getD 3 0 = N →
      (0 < (acc ++ scriptBytes s1).getD 1 0 &&& 0x40 →
        check_checksum (acc ++ scriptBytes s1) (8 + N) = true) →
      read_from_source_loop acc (s1 ++ s2) = DecodeResult.ok (8 + N) := by
  intro s1
  induction s1 with
  | nil => intro acc s2 _ hne; exact absurd rfl hne
  | cons s rest ih =>
    intro acc s2 hall _ hlen hmagic hfield hcheck
    match s with
    | ReadStep.ioErr => simp [allDataChunks] at hall
    | ReadStep.chunk bytes =>
      simp only [allDataChunks, Bool.and_eq_true] at hall
      have hbne : ¬ bytes.length = 0 := by
        intro h0
        rw [List.length_eq_zero.mp h0] at hall
        simp [List.isEmpty] at hall
      simp only [scriptBytes] at hlen hmagic hfield hcheck
      rw [← List.append_assoc] at hlen hmagic hfield hcheck
      rcases eq_or_ne rest [] with hrest | hrest
      · subst hrest
        simp only [scriptBytes, List.append_nil] at hlen hmagic hfield hcheck
        show read_from_source_loop acc (ReadStep.chunk bytes :: s2) = _
        rw [loop_complete_step hbne (by omega) hmagic (by omega)]
        rw [if_neg ?_, hlen]
        intro ⟨hs, hc⟩
        rw [hlen] at hc
        rw [hcheck hs] at hc
        simp at hc
      · have hpos := scriptBytes_pos hall.2 hrest
        have hlt : (acc ++ bytes).length < 8 + N := by
          simp only [List.length_append] at hlen ⊢
          omega
        have hstep : read_from_source_loop acc ((ReadStep.chunk bytes :: rest) ++ s2)
            = read_from_source_loop (acc ++ bytes) (rest ++ s2) := by
          apply loop_continue hbne
          by_cases h8 : (acc ++ bytes).length < 8
          · exact Or.inl h8
          · refine Or.inr ?_
            have g0 : ((acc ++ bytes) ++ scriptBytes rest).getD 0 0 = (acc ++ bytes).getD 0 0 :=
              List.getD_append _ _ _ _ (by omega)
            have g2 : ((acc ++ bytes) ++ scriptBytes rest).getD 2 0 = (acc ++ bytes).getD 2 0 :=
              List.getD_append _ _ _ _ (by omega)
            have g3 : ((acc ++ bytes) ++ scriptBytes rest).getD 3 0 = (acc ++ bytes).getD 3 0 :=
              List.getD_append _ _ _ _ (by omega)
            refine ⟨by rw [← g0, hmagic], ?_⟩
            rw [← g2, ← g3, hfield]
            omega
        rw [hstep]
        exact ih (acc ++ bytes) s2 hall.2 hrest hlen hmagic hfield hcheck

/-! ## Claim C1 -/

/-- C1: for a stream delivering a frame with valid magic byte, declared
payload length `N`, and (when the sensitive bit is set) a valid checksum,
the decoder keeps accumulating while fewer than `8 + N` bytes have
arrived, and returns `Ok(8 + N)` at the first read after which exactly
`8 + N` bytes are accumulated — regardless of what follows in the
script.  It never completes earlier and never needs more bytes. -/
theorem frame_complete_at_exact_length (N : Nat) :
    (∀ script, allDataChunks script = true →
      (8 ≤ (scriptBytes script).length →
        (scriptBytes script).getD 0 0 = 0xCC ∧
        (scriptBytes script).getD 2 0 * 256 + (scriptBytes script).getD 3 0 = N) →
      (scriptBytes script).length < 8 + N →
      read_from_source script = DecodeResult.pending (scriptBytes script))
    ∧ (∀ s1 s2, allDataChunks s1 = true →
      (scriptBytes s1).length = 8 + N →
      (scriptBytes s1).getD 0 0 = 0xCC →
      (scriptBytes s1).getD 2 0 * 256 + (scriptBytes s1).getD 3 0 = N →
      (0 < (scriptBytes s1).getD 1 0 &&& 0x40 →
        check_checksum (scriptBytes s1) (8 + N) = true) →
      read_from_source (s1 ++ s2) = DecodeResult.ok (8 + N)) := by
  constructor
  · intro script hall hhdr hlt
    have h := loop_pending N script [] hall (by simpa using hlt) (by simpa using hhdr)
    simpa [read_from_source] using h
  · intro s1 s2 hall hlen hmagic hfield hcheck
    have hne : s1 ≠ [] := by
      intro h
      rw [h] at hlen
      simp [scriptBytes] at hlen
      omega
    have h := loop_ok N s1 [] s2 hall hne (by simpa using hlen) (by simpa using hmagic)
      (by simpa using hfield) (by simpa using hcheck)
    simpa [read_from_source] using h

/-- Witness for `frame_complete_at_exact_length` with `N = 1`: a partial
frame stays pending, and the full 9-byte frame completes even when the
script continues past it. -/
theorem frame_complete_at_exact_length_witness :
    read_from_source [ReadStep.chunk [0xCC]] = DecodeResult.pending [0xCC]
    ∧ read_from_source ([ReadStep.chunk [0xCC, 0, 0, 1, 0, 0, 0, 0, 7]] ++ [ReadStep.ioErr])
      = DecodeResult.ok (8 + 1) :=
  ⟨(frame_complete_at_exact_length 1).1 [ReadStep.chunk [0xCC]]
      (by decide) (by decide) (by decide),
   (frame_complete_at_exact_length 1).2 [ReadStep.chunk [0xCC, 0, 0, 1, 0, 0, 0, 0, 7]]
      [ReadStep.ioErr] (by decide) (by decide) (by decide) (by decide) (by decide)⟩

/-! ## Claim C5 (corrected) -/

/-- C5 counterexample: a stream whose first byte is `0xAA ≠ 0xCC`, with
zero further bytes available, does not yield a bad-magic error — the
decoder is still waiting for more bytes. -/
theorem bad_magic_not_immediate_cex :
    read_from_source [ReadStep.chunk [0xAA]] = DecodeResult.pending [0xAA]
    ∧ read_from_source [ReadStep.chunk [0xAA]] ≠ DecodeResult.badMagic 0xAA := by
  decide

/-- C5 (amended): a wrong first byte is reported as a bad-magic error at
the first read that brings the accumulation to at least 8 bytes — the
decoder does not wait for the full declared frame, but below 8 bytes it
keeps reading. -/
theorem bad_magic_reported_at_eight_bytes (acc bytes : List Nat) (rest : List ReadStep)
    (hne : bytes ≠ [])
    (h8 : 8 ≤ (acc ++ bytes).length)
    (hmagic : (acc ++ bytes).getD 0 0 ≠ 0xCC) :
    read_from_source_loop acc (ReadStep.chunk bytes :: rest)
      = DecodeResult.badMagic ((acc ++ bytes).getD 0 0) := by
  simp only [read_from_source_loop]
  rw [if_neg (fun h0 => hne (List.length_eq_zero.mp h0)), if_neg (by omega), if_pos hmagic]

/-- Witness for `bad_magic_reported_at_eight_bytes`. -/
theorem bad_magic_reported_at_eight_bytes_witness :
    read_from_source_loop [] [ReadStep.chunk [0xAA, 0, 0, 0, 0, 0, 0, 0]]
      = DecodeResult.badMagic ((([] : List Nat) ++ [0xAA, 0, 0, 0, 0, 0, 0, 0]).getD 0 0) :=
  bad_magic_reported_at_eight_bytes [] [0xAA, 0, 0, 0, 0, 0, 0, 0] []
    (by decide) (by decide) (by decide)

/-! ## Claim C6 (corrected) -/

/-- C6 counterexample: a stream that has presented fewer than 8 bytes
(here none) and then reports end of stream yields the incomplete-packet
error, not an `Incomplete`/keep-waiting outcome. -/
theorem under_eight_bytes_eof_cex :
    read_from_source [ReadStep.chunk []] = DecodeResult.eofIncomplete
    ∧ read_from_source [ReadStep.chunk []] ≠ DecodeResult.pending [] := by
  decide

theorem loop_under_eight (script : List ReadStep) :
    ∀ acc : List Nat, (acc ++ scriptBytes script).length < 8 →
      read_from_source_loop acc script = DecodeResult.pending (acc ++ scriptBytes script)
      ∨ read_from_source_loop acc script = DecodeResult.eofIncomplete
      ∨ read_from_source_loop acc script = DecodeResult.ioError := by
  induction script with
  | nil =>
    intro acc h
    left
    simp [read_from_source_loop, scriptBytes]
  | cons s rest ih =>
    intro acc h
    match s with
    | ReadStep.ioErr => right; right; rfl
    | ReadStep.chunk bytes =>
      simp only [scriptBytes] at h ⊢
      rw [← List.append_assoc] at h ⊢
      by_cases h0 : bytes.length = 0
      · right; left
        simp only [read_from_source_loop]
        rw [if_pos h0]
      · have hstep := @loop_continue acc bytes rest h0
          (Or.inl (by simp only [List.length_append] at h ⊢; omega))
        rw [hstep]
        exact ih (acc ++ bytes) h

/-- C6 (amended): a stream that has presented fewer than 8 bytes never
yields `Ok`, a bad-magic error, or a bad-checksum error; and while the
reads keep delivering data (no end of stream, no I/O error) its outcome
is to keep accumulating. -/
theorem under_eight_bytes_incomplete (script : List ReadStep)
    (hlt : (scriptBytes script).length < 8) :
    (allDataChunks script = true →
      read_from_source script = DecodeResult.pending (scriptBytes script))
    ∧ (∀ n, read_from_source script ≠ DecodeResult.ok n)
    ∧ (∀ b, read_from_source script ≠ DecodeResult.badMagic b)
    ∧ read_from_source script ≠ DecodeResult.badChecksum := by
  have hd := loop_under_eight script [] (by simpa using hlt)
  refine ⟨?_, ?_, ?_, ?_⟩
  · intro hall
    have h := loop_pending 0 script [] hall (by simpa using hlt)
      (fun h8 => absurd h8 (by simp only [List.nil_append]; omega))
    simpa [read_from_source] using h
  · intro n hcontra
    rcases hd with h | h | h <;> (rw [read_from_source, h] at hcontra; simp at hcontra)
  · intro b hcontra
    rcases hd with h | h | h <;> (rw [read_from_source, h] at hcontra; simp at hcontra)
  · intro hcontra
    rcases hd with h | h | h <;> (rw [read_from_source, h] at hcontra; simp at hcontra)

/-- Witness for `under_eight_bytes_incomplete` on a 2-byte stream. -/
theorem under_eight_bytes_incomplete_witness :
    read_from_source [ReadStep.chunk [0xCC, 0x40]] = DecodeResult.pending [0xCC, 0x40]
    ∧ read_from_source [ReadStep.chunk [0xCC, 0x40]] ≠ DecodeResult.ok 2
    ∧ read_from_source [ReadStep.chunk [0xCC, 0x40]] ≠ DecodeResult.badMagic 0xCC
    ∧ read_from_source [ReadStep.chunk [0xCC, 0x40]] ≠ DecodeResult.badChecksum :=
  ⟨(under_eight_bytes_incomplete _ (by decide)).1 (by decide),
   (under_eight_bytes_incomplete _ (by decide)).2.1 2,
   (under_eight_bytes_incomplete _ (by decide)).2.2.1 0xCC,
   (under_eight_bytes_incomplete _ (by decide)).2.2.2⟩

/-! ## Claim C7 -/

/-- C7: at the read that makes a frame structurally complete (magic
correct, exactly `8 + length` bytes accumulated), the checksum decides
the outcome exactly when flag bit `0x40` is set: a sensitive frame with
a failing check yields the bad-checksum error — which `main` does not
broadcast — a sensitive frame with a passing check completes, and a
non-sensitive frame completes with no checksum condition at all. -/
theorem checksum_gate_on_sensitive_flag (acc bytes : List Nat) (rest : List ReadStep)
    (hne : bytes ≠ [])
    (h8 : 8 ≤ (acc ++ bytes).length)
    (hmagic : (acc ++ bytes).getD 0 0 = 0xCC)
    (hlen : (acc ++ bytes).length - 8
      = (acc ++ bytes).getD 2 0 * 256 + (acc ++ bytes).getD 3 0) :
    (0 < (acc ++ bytes).getD 1 0 &&& 0x40 →
      check_checksum (acc ++ bytes) (acc ++ bytes).length = false →
      read_from_source_loop acc (ReadStep.chunk bytes :: rest) = DecodeResult.badChecksum
        ∧ relay_broadcasts DecodeResult.badChecksum = false)
    ∧ (0 < (acc ++ bytes).getD 1 0 &&& 0x40 →
      check_checksum (acc ++ bytes) (acc ++ bytes).length = true →
      read_from_source_loop acc (ReadStep.chunk bytes :: rest)
        = DecodeResult.ok (acc ++ bytes).length)
    ∧ ((acc ++ bytes).getD 1 0 &&& 0x40 = 0 →
      read_from_source_loop acc (ReadStep.chunk bytes :: rest)
        = DecodeResult.ok (acc ++ bytes).length
        ∧ relay_broadcasts (DecodeResult.ok (acc ++ bytes).length) = true) := by
  have hb0 : ¬ bytes.length = 0 := fun h0 => hne (List.length_eq_zero.mp h0)
  have hstep := @loop_complete_step acc bytes rest hb0 h8 hmagic hlen
  refine ⟨?_, ?_, ?_⟩
  · intro hs hc
    rw [hstep, if_pos ⟨hs, hc⟩]
    exact ⟨rfl, rfl⟩
  · intro hs hc
    rw [hstep, if_neg (fun hand => by rw [hc] at hand; simp at hand)]
  · intro hns
    rw [hstep, if_neg (fun hand => by rw [hns] at hand; simp at hand)]
    exact ⟨rfl, rfl⟩

/-- Witness for `checksum_gate_on_sensitive_flag`: a sensitive frame
with a wrong checksum is rejected, the same frame with the right
checksum completes, and a non-sensitive frame with a zero (wrong, but
unchecked) checksum field completes. -/
theorem checksum_gate_on_sensitive_flag_witness :
    read_from_source_loop [] [ReadStep.chunk [0xCC, 0x40, 0, 1, 0, 0, 0, 0, 0]]
      = DecodeResult.badChecksum
    ∧ read_from_source_loop [] [ReadStep.chunk [0xCC, 0x40, 0, 1, 0x66, 0xF1, 0, 0, 0]]
      = DecodeResult.ok (([] : List Nat) ++ [0xCC, 0x40, 0, 1, 0x66, 0xF1, 0, 0, 0]).length
    ∧ read_from_source_loop [] [ReadStep.chunk [0xCC, 0, 0, 1, 0, 0, 0, 0, 5]]
      = DecodeResult.ok (([] : List Nat) ++ [0xCC, 0, 0, 1, 0, 0, 0, 0, 5]).length :=
  ⟨((checksum_gate_on_sensitive_flag [] [0xCC, 0x40, 0, 1, 0, 0, 0, 0, 0] []
      (by decide) (by decide) (by decide) (by decide)).1 (by decide) (by decide)).1,
   (checksum_gate_on_sensitive_flag [] [0xCC, 0x40, 0, 1, 0x66, 0xF1, 0, 0, 0] []
      (by decide) (by decide) (by decide) (by decide)).2.1 (by decide) (by decide),
   ((checksum_gate_on_sensitive_flag [] [0xCC, 0, 0, 1, 0, 0, 0, 0, 5] []
      (by decide) (by decide) (by decide) (by decide)).2.2 (by decide)).1⟩

/-! ## Claim C2 (corrected) -/

/-- C2 counterexample: after one byte has been read, a read returning an
I/O error (e.g. `WouldBlock` from the non-blocking source with no data
available) makes the invocation return an I/O error — not an
`Incomplete` outcome preserving the partial byte. -/
theorem would_block_is_error_cex :
    read_from_source [ReadStep.chunk [0xCC], ReadStep.ioErr] = DecodeResult.ioError
    ∧ read_from_source [ReadStep.chunk [0xCC], ReadStep.ioErr]
      ≠ DecodeResult.pending [0xCC] := by
  decide

/-- C2 (amended): every invocation of `read_from_source` starts from an
empty accumulation (no state survives across invocations), makes further
read attempts within the same invocation while the frame is incomplete,
and propagates any read error — including `WouldBlock` when no data is
currently available — as an error, discarding the partial frame. -/
theorem decoder_loops_and_propagates_read_errors :
    (∀ script, read_from_source script = read_from_source_loop [] script)
    ∧ (∀ (acc bytes : List Nat) (rest : List ReadStep), bytes ≠ [] →
      (acc ++ bytes).length < 8 →
      read_from_source_loop acc (ReadStep.chunk bytes :: rest)
        = read_from_source_loop (acc ++ bytes) rest)
    ∧ (∀ (acc : List Nat) (rest : List ReadStep),
      read_from_source_loop acc (ReadStep.ioErr :: rest) = DecodeResult.ioError) := by
  refine ⟨fun script => rfl, ?_, fun acc rest => rfl⟩
  intro acc bytes rest hne hlt
  exact loop_continue (fun h0 => hne (List.length_eq_zero.mp h0)) (Or.inl hlt)

/-- Witness for `decoder_loops_and_propagates_read_errors`. -/
theorem decoder_loops_and_propagates_read_errors_witness :
    read_from_source [ReadStep.chunk [0xCC], ReadStep.ioErr]
      = read_from_source_loop [] [ReadStep.chunk [0xCC], ReadStep.ioErr]
    ∧ read_from_source_loop [] [ReadStep.chunk [0xCC], ReadStep.ioErr]
      = read_from_source_loop (([] : List Nat) ++ [0xCC]) [ReadStep.ioErr]
    ∧ read_from_source_loop (([] : List Nat) ++ [0xCC]) [ReadStep.ioErr]
      = DecodeResult.ioError :=
  ⟨decoder_loops_and_propagates_read_errors.1 _,
   decoder_loops_and_propagates_read_errors.2.1 [] [0xCC] [ReadStep.ioErr]
     (by decide) (by decide),
   decoder_loops_and_propagates_read_errors.2.2 ([] ++ [0xCC]) [ReadStep.ioErr]⟩

/-! ## Claim C8 -/

/-- C8: `broadcast_to_destinations` attempts the write of the frame
slice to every consumer, in insertion order: the result has one entry
per consumer, position for position; every non-failing consumer receives
the frame no matter which other consumers fail, and a failing consumer's
write is merely recorded as failed. -/
theorem broadcast_independent_writes (clients : List Bool) (buffer : List Nat) (size : Nat) :
    (broadcast_to_destinations clients buffer size).length = clients.length
    ∧ (∀ i : Nat, clients[i]? = some false →
      (broadcast_to_destinations clients buffer size)[i]? = some (some (buffer.take size)))
    ∧ (∀ i : Nat, clients[i]? = some true →
      (broadcast_to_destinations clients buffer size)[i]? = some none) := by
  refine ⟨by simp [broadcast_to_destinations], ?_, ?_⟩
  · intro i h
    simp [broadcast_to_destinations, List.getElem?_map, h]
  · intro i h
    simp [broadcast_to_destinations, List.getElem?_map, h]

/-- Witness for `broadcast_independent_writes`: 3 consumers, the 2nd
failing — consumers 1 and 3 still receive the frame. -/
theorem broadcast_independent_writes_witness :
    (broadcast_to_destinations [false, true, false] [1, 2, 3] 3).length = 3
    ∧ (broadcast_to_destinations [false, true, false] [1, 2, 3] 3)[0]?
      = some (some (([1, 2, 3] : List Nat).take 3))
    ∧ (broadcast_to_destinations [false, true, false] [1, 2, 3] 3)[1]? = some none
    ∧ (broadcast_to_destinations [false, true, false] [1, 2, 3] 3)[2]?
      = some (some (([1, 2, 3] : List Nat).take 3)) :=
  ⟨(broadcast_independent_writes [false, true, false] [1, 2, 3] 3).1,
   (broadcast_independent_writes [false, true, false] [1, 2, 3] 3).2.1 0 (by decide),
   (broadcast_independent_writes [false, true, false] [1, 2, 3] 3).2.2 1 (by decide),
   (broadcast_independent_writes [false, true, false] [1, 2, 3] 3).2.1 2 (by decide)⟩

/-! ## Claim C10 -/

/-- C10: a zero-byte read — end of stream — on the very first read of an
invocation yields exactly the same incomplete-packet error as a
mid-frame end of stream (there is no separate graceful-close outcome),
and `main` replaces the producer connection only on a successful accept,
so a closed producer stays current and the error recurs until a new
producer connects. -/
theorem eof_same_error_and_producer_kept :
    (∀ rest : List ReadStep,
      read_from_source (ReadStep.chunk [] :: rest) = DecodeResult.eofIncomplete)
    ∧ (∀ (acc : List Nat) (rest : List ReadStep),
      read_from_source_loop acc (ReadStep.chunk [] :: rest) = DecodeResult.eofIncomplete)
    ∧ (∀ current : Option Nat, next_source_client none current = current)
    ∧ (∀ (current : Option Nat) (s : Nat), next_source_client (some s) current = some s) :=
  ⟨fun _ => rfl, fun _ _ => rfl, fun _ => rfl, fun _ _ => rfl⟩

/-! ## Claim C9: guarded evaluation -/

theorem csLoopChecked_eq {data : List Nat} {n : Nat} (hn : n ≤ data.length) :
    ∀ (is : List Nat) (sum : Nat), (∀ i ∈ is, i < n) →
      csLoopChecked data n is sum = some (csLoop data n is sum) := by
  intro is
  induction is with
  | nil => intro sum _; rfl
  | cons i is ih =>
    intro sum hmem
    have hi : i < n := hmem i (List.mem_cons_self i is)
    have hil : i < data.length := by omega
    simp only [csLoopChecked, List.getElem?_eq_getElem hil, Option.some_bind]
    by_cases h2 : i + 1 < n
    · have hil2 : i + 1 < data.length := by omega
      rw [if_pos h2, List.getElem?_eq_getElem hil2]
      simp only [Option.some_bind]
      rw [ih _ (fun j hj => hmem j (List.mem_cons_of_mem i hj))]
      show some (csLoop data n is _) = some (csLoop data n is (csFoldStep data n sum i))
      refine congrArg (fun x => some (csLoop data n is x)) ?_
      simp only [csFoldStep, wordVal]
      rw [if_pos h2, List.getD_eq_getElem data 0 hil, List.getD_eq_getElem data 0 hil2]
    · rw [if_neg h2]
      simp only [Option.some_bind]
      rw [ih _ (fun j hj => hmem j (List.mem_cons_of_mem i hj))]
      show some (csLoop data n is _) = some (csLoop data n is (csFoldStep data n sum i))
      refine congrArg (fun x => some (csLoop data n is x)) ?_
      simp only [csFoldStep, wordVal]
      rw [if_neg h2, List.getD_eq_getElem data 0 hil]

theorem calculate_checksumChecked_eq {data : List Nat} {n : Nat} (hn : n ≤ data.length) :
    calculate_checksumChecked data n = some (calculate_checksum data n) := by
  have h := csLoopChecked_eq hn (csIndices n) 0 (fun i hi => (mem_csIndices_lt hi).1)
  simp [calculate_checksumChecked, calculate_checksum, h]

theorem check_checksumChecked_eq {data : List Nat} {n : Nat} (h8 : 8 ≤ n)
    (hn : n ≤ data.length) :
    check_checksumChecked data n = some (check_checksum data n) := by
  have h4 : 4 < data.length := by omega
  have h5 : 5 < data.length := by omega
  simp only [check_checksumChecked, List.getElem?_eq_getElem h4,
    List.getElem?_eq_getElem h5, Option.some_bind, calculate_checksumChecked_eq hn,
    Option.map_some']
  simp only [check_checksum]
  rw [List.getD_eq_getElem data 0 h4, List.getD_eq_getElem data 0 h5]

theorem loop_ok_bounds :
    ∀ (script : List ReadStep) (acc : List Nat),
      acc.length ≤ bufferSize → scriptFits acc.length script = true →
      ∀ n, read_from_source_loop acc script = DecodeResult.ok n →
        8 ≤ n ∧ n ≤ bufferSize := by
  intro script
  induction script with
  | nil =>
    intro acc _ _ n h
    simp [read_from_source_loop] at h
  | cons s rest ih =>
    intro acc hle hfits n h
    match s with
    | ReadStep.ioErr => simp [read_from_source_loop] at h
    | ReadStep.chunk bytes =>
      simp only [scriptFits, Bool.and_eq_true, decide_eq_true_eq] at hfits
      obtain ⟨hfit1, hfit2⟩ := hfits
      have hbuf : bufferSize = 70000 := rfl
      have hacc2 : (acc ++ bytes).length ≤ bufferSize := by
        simp only [List.length_append]
        omega
      have hfits2 : scriptFits (acc ++ bytes).length rest = true := by
        simp only [List.length_append]
        exact hfit2
      simp only [read_from_source_loop] at h
      split at h
      · simp at h
      · split at h
        · exact ih (acc ++ bytes) hacc2 hfits2 n h
        · split at h
          · simp at h
          · split at h
            · exact ih (acc ++ bytes) hacc2 hfits2 n h
            · split at h
              · simp at h
              · simp only [DecodeResult.ok.injEq] at h
                subst h
                constructor
                · omega
                · exact hacc2

theorem checked_eof {acc bytes : List Nat} {rest : List ReadStep}
    (hg : acc.length ≤ bufferSize ∧ bytes.length ≤ bufferSize - acc.length)
    (h0 : bytes.length = 0) :
    read_loopChecked acc (ReadStep.chunk bytes :: rest)
      = some DecodeResult.eofIncomplete := by
  simp only [read_loopChecked]
  rw [if_pos hg, if_pos h0]

theorem checked_continue {acc bytes : List Nat} {rest : List ReadStep}
    (hg : acc.length ≤ bufferSize ∧ bytes.length ≤ bufferSize - acc.length)
    (hne : ¬ bytes.length = 0)
    (hcont : (acc ++ bytes).length < 8 ∨
      ((acc ++ bytes).getD 0 0 = 0xCC ∧
        (acc ++ bytes).length - 8 ≠ (acc ++ bytes).getD 2 0 * 256 + (acc ++ bytes).getD 3 0)) :
    read_loopChecked acc (ReadStep.chunk bytes :: rest)
      = read_loopChecked (acc ++ bytes) rest := by
  simp only [read_loopChecked]
  rw [if_pos hg, if_neg hne]
  by_cases hlt : (acc ++ bytes).length < 8
  · rw [if_pos hlt]
  · obtain ⟨h1, h2⟩ := hcont.resolve_left hlt
    have hi0 : 0 < (acc ++ bytes).length := by omega
    have hi2 : 2 < (acc ++ bytes).length := by omega
    have hi3 : 3 < (acc ++ bytes).length := by omega
    have hb0 : (acc ++ bytes)[0] = 0xCC :=
      (List.getD_eq_getElem (acc ++ bytes) 0 hi0).symm.trans h1
    rw [if_neg hlt, List.getElem?_eq_getElem hi0]
    simp only [Option.some_bind]
    rw [if_neg (fun hh => hh hb0), if_pos (show 8 ≤ (acc ++ bytes).length by omega),
      List.getElem?_eq_getElem hi2]
    simp only [Option.some_bind]
    rw [List.getElem?_eq_getElem hi3]
    simp only [Option.some_bind]
    rw [(List.getD_eq_getElem (acc ++ bytes) 0 hi2).symm,
      (List.getD_eq_getElem (acc ++ bytes) 0 hi3).symm, if_pos h2]

theorem checked_badmagic {acc bytes : List Nat} {rest : List ReadStep}
    (hg : acc.length ≤ bufferSize ∧ bytes.length ≤ bufferSize - acc.length)
    (hne : ¬ bytes.length = 0)
    (h8 : 8 ≤ (acc ++ bytes).length)
    (hmagic : (acc ++ bytes).getD 0 0 ≠ 0xCC) :
    read_loopChecked acc (ReadStep.chunk bytes :: rest)
      = some (DecodeResult.badMagic ((acc ++ bytes).getD 0 0)) := by
  have hi0 : 0 < (acc ++ bytes).length := by omega
  simp only [read_loopChecked]
  rw [if_pos hg, if_neg hne, if_neg (by omega), List.getElem?_eq_getElem hi0]
  simp only [Option.some_bind]
  rw [if_pos (fun hh => hmagic ((List.getD_eq_getElem (acc ++ bytes) 0 hi0).trans hh)),
    (List.getD_eq_getElem (acc ++ bytes) 0 hi0).symm]

theorem loop_badmagic {acc bytes : List Nat} {rest : List ReadStep}
    (hne : ¬ bytes.length = 0)
    (h8 : 8 ≤ (acc ++ bytes).length)
    (hmagic : (acc ++ bytes).getD 0 0 ≠ 0xCC) :
    read_from_source_loop acc (ReadStep.chunk bytes :: rest)
      = DecodeResult.badMagic ((acc ++ bytes).getD 0 0) := by
  simp only [read_from_source_loop]
  rw [if_neg hne, if_neg (by omega), if_pos hmagic]

theorem checked_complete {acc bytes : List Nat} {rest : List ReadStep}
    (hg : acc.length ≤ bufferSize ∧ bytes.length ≤ bufferSize - acc.length)
    (hne : ¬ bytes.length = 0)
    (h8 : 8 ≤ (acc ++ bytes).length)
    (hmagic : (acc ++ bytes).getD 0 0 = 0xCC)
    (hlen : (acc ++ bytes).length - 8
      = (acc ++ bytes).getD 2 0 * 256 + (acc ++ bytes).getD 3 0) :
    read_loopChecked acc (ReadStep.chunk bytes :: rest)
      = some (if 0 < (acc ++ bytes).getD 1 0 &&& 0x40 ∧
            check_checksum (acc ++ bytes) (acc ++ bytes).length = false
          then DecodeResult.badChecksum
          else DecodeResult.ok (acc ++ bytes).length) := by
  have hi0 : 0 < (acc ++ bytes).length := by omega
  have hi1 : 1 < (acc ++ bytes).length := by omega
  have hi2 : 2 < (acc ++ bytes).length := by omega
  have hi3 : 3 < (acc ++ bytes).length := by omega
  have hb0 : (acc ++ bytes)[0] = 0xCC :=
    (List.getD_eq_getElem (acc ++ bytes) 0 hi0).symm.trans hmagic
  simp only [read_loopChecked]
  rw [if_pos hg, if_neg hne, if_neg (by omega), List.getElem?_eq_getElem hi0]
  simp only [Option.some_bind]
  rw [if_neg (fun hh => hh hb0), if_pos h8, List.getElem?_eq_getElem hi2]
  simp only [Option.some_bind]
  rw [List.getElem?_eq_getElem hi3]
  simp only [Option.some_bind]
  rw [(List.getD_eq_getElem (acc ++ bytes) 0 hi2).symm,
    (List.getD_eq_getElem (acc ++ bytes) 0 hi3).symm, if_neg (fun hh => hh hlen),
    List.getElem?_eq_getElem hi1]
  simp only [Option.some_bind]
  rw [(List.getD_eq_getElem (acc ++ bytes) 0 hi1).symm]
  by_cases hsens : 0 < (acc ++ bytes).getD 1 0 &&& 0x40
  · rw [if_pos hsens, check_checksumChecked_eq h8 (le_refl _)]
    simp only [Option.some_bind]
    by_cases hcs : check_checksum (acc ++ bytes) (acc ++ bytes).length = false
    · rw [if_pos hcs, if_pos ⟨hsens, hcs⟩]
    · rw [if_neg hcs, if_neg (fun hand => hcs hand.2)]
  · rw [if_neg hsens, if_neg (fun hand => hsens hand.1)]

theorem read_loopChecked_eq :
    ∀ (script : List ReadStep) (acc : List Nat),
      acc.length ≤ bufferSize → scriptFits acc.length script = true →
      read_loopChecked acc script = some (read_from_source_loop acc script) := by
  intro script
  induction script with
  | nil => intro acc _ _; rfl
  | cons s rest ih =>
    intro acc hle hfits
    match s with
    | ReadStep.ioErr => rfl
    | ReadStep.chunk bytes =>
      simp only [scriptFits, Bool.and_eq_true, decide_eq_true_eq] at hfits
      obtain ⟨hfit1, hfit2⟩ := hfits
      have hg : acc.length ≤ bufferSize ∧ bytes.length ≤ bufferSize - acc.length :=
        ⟨hle, hfit1⟩
      have hbuf : bufferSize = 70000 := rfl
      have hacc2 : (acc ++ bytes).length ≤ bufferSize := by
        simp only [List.length_append]
        omega
      have hfits2 : scriptFits (acc ++ bytes).length rest = true := by
        simp only [List.length_append]
        exact hfit2
      by_cases h0 : bytes.length = 0
      · rw [checked_eof hg h0]
        simp only [read_from_source_loop]
        rw [if_pos h0]
      · by_cases hlt : (acc ++ bytes).length < 8
        · rw [checked_continue hg h0 (Or.inl hlt),
            loop_continue h0 (Or.inl hlt)]
          exact ih (acc ++ bytes) hacc2 hfits2
        · by_cases hmagic : (acc ++ bytes).getD 0 0 = 0xCC
          · by_cases hmis : (acc ++ bytes).length - 8
                = (acc ++ bytes).getD 2 0 * 256 + (acc ++ bytes).getD 3 0
            · rw [checked_complete hg h0 (by omega) hmagic hmis,
                loop_complete_step h0 (by omega) hmagic hmis]
            · rw [checked_continue hg h0 (Or.inr ⟨hmagic, hmis⟩),
                loop_continue h0 (Or.inr ⟨hmagic, hmis⟩)]
              exact ih (acc ++ bytes) hacc2 hfits2
          · rw [checked_badmagic hg h0 (by omega) hmagic,
              loop_badmagic h0 (by omega) hmagic]

/-- C9: with reads that respect the `read` contract (each chunk fits in
the remaining space of `main`'s 70000-byte buffer, which exceeds the
maximum frame size `8 + 65535`), the fully guarded decoder — every
buffer index fetched with `[·]?`, the `usize` subtraction `total - 8`
guarded by `8 ≤ total`, the checksum functions indexing only below the
packet size passed to them — runs without any guard failing and computes
exactly the unguarded result; a completed frame's byte count `n`
satisfies `8 ≤ n ≤ 70000`. -/
theorem no_out_of_bounds_access (script : List ReadStep)
    (hfits : scriptFits 0 script = true) :
    read_loopChecked [] script = some (read_from_source script)
    ∧ (∀ n, read_from_source script = DecodeResult.ok n → 8 ≤ n ∧ n ≤ bufferSize)
    ∧ 8 + 0xFFFF < bufferSize := by
  refine ⟨?_, ?_, by norm_num [bufferSize]⟩
  · exact read_loopChecked_eq script [] (Nat.zero_le _) hfits
  · intro n h
    exact loop_ok_bounds script [] (Nat.zero_le _) hfits n h

/-- Witness for `no_out_of_bounds_access` on a minimal 8-byte frame. -/
theorem no_out_of_bounds_access_witness :
    read_loopChecked [] [ReadStep.chunk [0xCC, 0, 0, 0, 0, 0, 0, 0]]
      = some (read_from_source [ReadStep.chunk [0xCC, 0, 0, 0, 0, 0, 0, 0]])
    ∧ (8 ≤ 8 ∧ 8 ≤ bufferSize)
    ∧ 8 + 0xFFFF < bufferSize :=
  ⟨(no_out_of_bounds_access [ReadStep.chunk [0xCC, 0, 0, 0, 0, 0, 0, 0]] (by decide)).1,
   (no_out_of_bounds_access [ReadStep.chunk [0xCC, 0, 0, 0, 0, 0, 0, 0]] (by decide)).2.1
     8 (by decide),
   (no_out_of_bounds_access [ReadStep.chunk [0xCC, 0, 0, 0, 0, 0, 0, 0]] (by decide)).2.2⟩
